import Mathlib

/-!
Verification of the clue-layout extractor of the cryptic-crossword benchmark
repository (`extraction/extract_clues.py`).  The Python source is shallowly
embedded: page text is `List Char`, coordinates are `ℚ`, Python exceptions are
`Option` (a raised exception becomes `none`), and the specific regular
expression `(\d+)\s+(.+?)\s+(\(\d+(?:,\s*\d+)*\))` used by the source is
embedded as a specialised backtracking matcher with Python `re` semantics
(leftmost match, greedy/lazy priority order, `.` not matching a newline).
-/

namespace CrypticExtract

/-- Python `\s` / `str.strip()` whitespace characters (ASCII subset actually
exercised by the source: space, tab, newline, carriage return, vertical tab,
form feed). -/
def isPySpace (c : Char) : Bool :=
  c = ' ' || c = '\t' || c = '\n' || c = '\r' || c = '\x0B' || c = '\x0C'

/-- Numeric value of a decimal digit character. -/
def digitVal (c : Char) : ℕ := c.toNat - '0'.toNat

/-- Value of a digit string read left to right. -/
def valDigits (ds : List Char) : ℕ :=
  ds.foldl (fun a c => 10 * a + digitVal c) 0

/-- Parse a nonempty all-digit string to a natural number (the digit-run core
of Python `int()`). -/
def parseDigits (ds : List Char) : Option ℕ :=
  if ds.isEmpty then none
  else if ds.all Char.isDigit then some (valDigits ds)
  else none

/-- Strip characters satisfying `p` from both ends of a string, as Python
`str.strip(chars)` does. -/
def pyStripSet (p : Char → Bool) (s : List Char) : List Char :=
  (((s.dropWhile p).reverse).dropWhile p).reverse

/-- Python `str.strip()` (whitespace strip). -/
def pyStrip (s : List Char) : List Char := pyStripSet isPySpace s

/-- Python `str.strip("()")`, as used by `parse_answer_length`. -/
def pyStripParens (s : List Char) : List Char :=
  pyStripSet (fun c => c = '(' || c = ')') s

/-- Python `int(s)`: strip surrounding whitespace, allow one optional sign,
then a nonempty run of decimal digits.  (Unreachable `int()` niceties such as
digit-group underscores are omitted: every string this model feeds to `int`
is produced by the digit-only regex groups or by the round-trip formatter.) -/
def pyInt (s : List Char) : Option ℤ :=
  match pyStrip s with
  | [] => none
  | c :: r =>
    if c = '-' then (parseDigits r).map (fun n => -(n : ℤ))
    else if c = '+' then (parseDigits r).map (fun n => (n : ℤ))
    else (parseDigits (c :: r)).map (fun n => (n : ℤ))

/-- Python `str.split(sep)` for a one-character separator: splits at every
occurrence, keeping empty segments (`"".split(",") = [""]`). -/
def splitSep (sep : Char) : List Char → List (List Char)
  | [] => [[]]
  | c :: t =>
    if c = sep then [] :: splitSep sep t
    else
      match splitSep sep t with
      | [] => [[c]]
      | h :: r => (c :: h) :: r

/-- Python `sep.join(xs)` for a string separator. -/
def joinSep (sep : List Char) : List (List Char) → List Char
  | [] => []
  | [x] => x
  | x :: xs => x ++ sep ++ joinSep sep xs

/-- Python substring test `sub in s`. -/
def containsSub (sub : List Char) : List Char → Bool
  | [] => sub.isEmpty
  | c :: t => sub.isPrefixOf (c :: t) || containsSub sub t

/-- `parse_answer_length` (source lines 11–16): strip the enclosing
parentheses; if a comma is present split on commas and parse each
whitespace-stripped segment with `int`, otherwise parse the whole string with
`int`.  A raised `ValueError` is modelled as `none`. -/
def parse_answer_length (s : List Char) : Option (List ℤ) :=
  let t := pyStripParens s
  if ',' ∈ t then
    (splitSep ',' t).mapM (fun x => pyInt (pyStrip x))
  else
    (pyInt t).map (fun n => [n])

/-! ### Positioned tokens, rounding, and the line reconstructor -/

/-- A positioned page token as produced by `page.extract_words()`: the word
text, its left edge `x0` and its top edge `top`. -/
structure Tok where
  text : List Char
  x0 : ℚ
  top : ℚ
deriving DecidableEq

/-- Round-half-to-even on rationals, the rounding rule of Python `round`.
(The source rounds IEEE doubles; on the coordinate values appearing in this
development the double rounding and the exact rational rounding agree, and no
half-way case arises.) -/
def halfEvenRound (q : ℚ) : ℤ :=
  let f := ⌊q⌋
  let r := q - (f : ℚ)
  if r < 1 / 2 then f
  else if 1 / 2 < r then f + 1
  else if f % 2 = 0 then f else f + 1

/-- Python `round(y, 1)`: round to one decimal digit. -/
def pyRound1 (q : ℚ) : ℚ := (halfEvenRound (10 * q) : ℚ) / 10

/-- Insert a rational into an ascending list (used to model `sorted` on the
rounded line keys, which are pairwise distinct). -/
def insertQ (x : ℚ) : List ℚ → List ℚ
  | [] => [x]
  | y :: t => if x < y then x :: y :: t else y :: insertQ x t

/-- Ascending sort of the rounded line keys. -/
def sortQ (l : List ℚ) : List ℚ := l.foldl (fun acc x => insertQ x acc) []

/-- Stable insertion by `x0`: a later token is placed after all tokens with
`x0` less than or equal to its own, matching Python's stable `sorted` with
key `w["x0"]`. -/
def insertTok (w : Tok) : List Tok → List Tok
  | [] => [w]
  | v :: t => if w.x0 < v.x0 then w :: v :: t else v :: insertTok w t

/-- Stable sort by ascending `x0` (Python `sorted(line_words, key=x0)`). -/
def sortByX0 (l : List Tok) : List Tok := l.foldl (fun acc w => insertTok w acc) []

/-- `reconstruct_text` (source lines 62–83): group tokens by their `top`
rounded to one decimal (a Python dict keyed by the rounded value), sort the
keys ascending, within each line sort tokens by ascending `x0` (stably), join
a line's texts with single spaces and the lines with newlines.  The group of
a key is its tokens in input order, as dict insertion produces. -/
def reconstruct_text (ws : List Tok) : List Char :=
  if ws.isEmpty then []
  else
    let ys := sortQ ((ws.map (fun w => pyRound1 w.top)).dedup)
    joinSep ['\n']
      (ys.map (fun y =>
        joinSep [' ']
          ((sortByX0 (ws.filter (fun w => pyRound1 w.top = y))).map Tok.text)))

/-- Left ("across") column: tokens with `x0 < middle_x` (source line 58). -/
def left_words (ws : List Tok) (middle : ℚ) : List Tok :=
  ws.filter (fun w => w.x0 < middle)

/-- Right ("down") column: tokens with `x0 >= middle_x` (source line 59). -/
def right_words (ws : List Tok) (middle : ℚ) : List Tok :=
  ws.filter (fun w => middle ≤ w.x0)

/-! ### The clue pattern matcher

The source scans each column's text with
`re.finditer(r"(\d+)\s+(.+?)\s+(\(\d+(?:,\s*\d+)*\))", text)`.
The matcher below embeds exactly that pattern with Python backtracking
semantics.  Sub-patterns whose character class is disjoint from what follows
are determinised to maximal munch, which is observationally equal to
backtracking there:
* group 1 `\d+` is followed by `\s+`, and a digit is never whitespace, so a
  shortened digit run leaves a digit where whitespace is required;
* the `\s+` before group 3 is followed by a literal `(`, which is not
  whitespace;
* inside group 3, every `\d+` is followed by `,` or `)`, the `\s*` is
  followed by `\d`, and the starred group must iterate exactly while the next
  character is a comma, since `)` can never match a `,`.
The first `\s+` genuinely backtracks: `.` matches a space, so a shorter
whitespace run (with group 2 swallowing spaces) can succeed where the maximal
run fails, e.g. on `"1   (8)"`.  Group 2 `(.+?)` is lazy: shortest first,
and `.` never matches a newline. -/

/-- A match of the clue pattern: the three captured groups. -/
structure RMatch where
  g1 : List Char
  g2 : List Char
  g3 : List Char
deriving DecidableEq

/-- The tail of the length-spec group after its leading `(` and digit run:
zero or more of `,\s*\d+`, then the closing `)`.  Returns the whole captured
group-3 text (`acc` plus what this consumes) and the remaining input.  `fuel`
only serves structural termination; `rest.length + 1` always suffices since
every iteration consumes at least two characters. -/
def parenTail (fuel : ℕ) (s : List Char) (acc : List Char) :
    Option (List Char × List Char) :=
  match fuel with
  | 0 => none
  | fuel + 1 =>
    match s with
    | ')' :: r => some (acc ++ [')'], r)
    | ',' :: r =>
      let ws := r.takeWhile isPySpace
      let r2 := r.dropWhile isPySpace
      let ds := r2.takeWhile Char.isDigit
      if ds.isEmpty then none
      else parenTail fuel (r2.dropWhile Char.isDigit) (acc ++ ',' :: (ws ++ ds))
    | _ => none

/-- The length-spec group `\(\d+(?:,\s*\d+)*\)`: a literal `(`, a digit run,
then `parenTail`.  Returns the captured group-3 text and the remaining
input. -/
def parseParen (s : List Char) : Option (List Char × List Char) :=
  match s with
  | '(' :: r =>
    let ds := r.takeWhile Char.isDigit
    if ds.isEmpty then none
    else parenTail (r.length + 1) (r.dropWhile Char.isDigit) ('(' :: ds)
  | _ => none

/-- The lazy group 2 `(.+?)` followed by `\s+` and group 3: extend group 2
one non-newline character at a time (shortest first); after each extension
try the maximal whitespace run followed by the length-spec group. -/
def lazyLoop (g1 : List Char) (g2rev : List Char) (s : List Char) :
    Option (RMatch × List Char) :=
  match s with
  | [] => none
  | c :: r =>
    if c = '\n' then none
    else
      match (if (r.takeWhile isPySpace).isEmpty then none
             else parseParen (r.dropWhile isPySpace)) with
      | some (g3, rest) => some (⟨g1, (c :: g2rev).reverse, g3⟩, rest)
      | none => lazyLoop g1 (c :: g2rev) r

/-- The first `\s+`, greedy with backtracking: `wsRev` is the reversed
still-consumed part of the maximal whitespace run; try the continuation with
the current run, then move its last character back to the input, down to a
run of one character. -/
def ws1Loop (g1 : List Char) (wsRev : List Char) (rest : List Char) :
    Option (RMatch × List Char) :=
  match wsRev with
  | [] => none
  | c :: cr =>
    match lazyLoop g1 [] rest with
    | some v => some v
    | none => ws1Loop g1 cr (c :: rest)

/-- Try the clue pattern anchored at the start of `s`; on success return the
match and the input remaining after it. -/
def matchAt (s : List Char) : Option (RMatch × List Char) :=
  let g1 := s.takeWhile Char.isDigit
  if g1.isEmpty then none
  else
    let r1 := s.dropWhile Char.isDigit
    ws1Loop g1 ((r1.takeWhile isPySpace).reverse) (r1.dropWhile isPySpace)

/-- `re.finditer` for the clue pattern: non-overlapping leftmost matches in
document order; scanning resumes after each match.  `fuel` only serves
structural termination; `s.length + 1` always suffices since every step
consumes at least one character. -/
def finditerAux (fuel : ℕ) (s : List Char) : List RMatch :=
  match fuel with
  | 0 => []
  | fuel + 1 =>
    match matchAt s with
    | some (m, rest) => m :: finditerAux fuel rest
    | none => if s.isEmpty then [] else finditerAux fuel s.tail

/-- All matches of the clue pattern in `s`, in document order. -/
def finditer (s : List Char) : List RMatch := finditerAux (s.length + 1) s

/-! ### Clue records and the per-column extraction loop -/

/-- One extracted clue: the dict `{"clue": ..., "answer_length": ...,
"answer": None}` built for each match (source lines 92–96 and 101–105). -/
structure Clue where
  clue : List Char
  answer_length : List ℤ
  answer : Option (List Char)
deriving DecidableEq

/-- Python dict assignment `d[k] = v` on an association list: replace in
place if the key is present, else append. -/
def dictInsert (d : List (ℤ × Clue)) (k : ℤ) (v : Clue) : List (ℤ × Clue) :=
  match d with
  | [] => [(k, v)]
  | (k', v') :: t => if k' = k then (k, v) :: t else (k', v') :: dictInsert t k v

/-- Python dict lookup `d[k]` (first entry with the key; keys stay unique). -/
def lookupDict (k : ℤ) : List (ℤ × Clue) → Option Clue
  | [] => none
  | (k', v) :: t => if k' = k then some v else lookupDict k t

/-- The per-column loop `for match in re.finditer(...)`: for each match set
`clues[int(group 1)] = {"clue": group 2 stripped, "answer_length":
parse_answer_length(group 3), "answer": None}`.  A `ValueError` from either
`int` call propagates out of the loop uncaught, aborting the whole column:
that is modelled by `none`. -/
def processMatches : List RMatch → List (ℤ × Clue) → Option (List (ℤ × Clue))
  | [], d => some d
  | m :: ms, d =>
    match pyInt m.g1, parse_answer_length m.g3 with
    | some n, some lens => processMatches ms (dictInsert d n ⟨pyStrip m.g2, lens, none⟩)
    | _, _ => none

/-- Extract the clue map of one column from its reconstructed text (source
lines 89–98, identically 100–107 for the down column). -/
def extractColumn (text : List Char) : Option (List (ℤ × Clue)) :=
  processMatches (finditer text) []

/-! ### Metadata scanner -/

/-- The puzzle date/name heuristics over the first page lines. -/
structure Meta where
  date : Option (List Char)
  puzzle_name : Option (List Char)
deriving DecidableEq

/-- The calendar month names tested by the scanner (source lines 37–50). -/
def months : List (List Char) :=
  [("January").toList, ("February").toList, ("March").toList, ("April").toList,
   ("May").toList, ("June").toList, ("July").toList, ("August").toList,
   ("September").toList, ("October").toList, ("November").toList,
   ("December").toList]

/-- The date heuristic (source line 36): the line contains the substring
`"20"` and some month name. -/
def dateTest (line : List Char) : Bool :=
  containsSub ("20").toList line && months.any (fun m => containsSub m line)

/-- The name heuristic (source line 52): the line contains `"Times"`,
`"Cryptic"` or `"Quick"`. -/
def nameTest (line : List Char) : Bool :=
  containsSub ("Times").toList line || containsSub ("Cryptic").toList line ||
    containsSub ("Quick").toList line

/-- One iteration of the metadata loop: the date test, else the name test,
else nothing; the matching line is stored stripped. -/
def scanStep (m : Meta) (line : List Char) : Meta :=
  if dateTest line then ⟨some (pyStrip line), m.puzzle_name⟩
  else if nameTest line then ⟨m.date, some (pyStrip line)⟩
  else m

/-- The metadata scanner (source lines 34–53): fold `scanStep` over the first
five page lines, starting from the empty dict. -/
def scanMeta (lines : List (List Char)) : Meta :=
  (lines.take 5).foldl scanStep ⟨none, none⟩

/-- The predicate under which the metadata loop stores a line as the puzzle
name: the name keywords match and the date test does not (the name branch is
the `elif` of the date branch). -/
def nameKeep (line : List Char) : Bool := !dateTest line && nameTest line

/-- Number of entries of the clue dict with the given key. -/
def countKey (k : ℤ) (d : List (ℤ × Clue)) : ℕ :=
  (d.filter (fun e => e.1 = k)).length

/-- Whether a match's leading-number group parses to the given clue number. -/
def numIs (n : ℤ) (m : RMatch) : Bool := pyInt m.g1 = some n

/-- The clue record built from one match of the clue pattern (the dict value
of source lines 93–96), with the parsed answer length. -/
def toClue (m : RMatch) : Clue :=
  ⟨pyStrip m.g2, (parse_answer_length m.g3).getD [], none⟩

/-! ### Spec-side definitions

These are not translations of the source: they render the spec's words, to be
compared against the source embedding above. -/

/-- Modelled from the spec (round-trip property): format a length sequence as
a parenthesized comma-separated spec, `[4,3,5]` as `"(4,3,5)"`.  The
repository has no formatter; this definition follows the spec's words. -/
def natToCharsAux : ℕ → ℕ → List Char
  | 0, _ => []
  | fuel + 1, n =>
    if n < 10 then [Nat.digitChar n]
    else natToCharsAux fuel (n / 10) ++ [Nat.digitChar (n % 10)]

/-- Decimal rendering of a natural number. -/
def natToChars (n : ℕ) : List Char := natToCharsAux (n + 1) n

/-- Decimal rendering of an integer (Python `str`). -/
def intToChars (n : ℤ) : List Char :=
  if n < 0 then '-' :: natToChars (-n).toNat else natToChars n.toNat

/-- Modelled from the spec: `"(4,3,5)"`-style formatting of a length
sequence. -/
def formatLenSpec (L : List ℤ) : List Char :=
  '(' :: joinSep [','] (L.map intToChars) ++ [')']

/-- Modelled from the spec (C8): "a four-digit year" — the line contains a
run of four consecutive decimal digits. -/
def hasFourDigitRun : List Char → Bool
  | a :: b :: c :: d :: rest =>
    (a.isDigit && b.isDigit && c.isDigit && d.isDigit) ||
      hasFourDigitRun (b :: c :: d :: rest)
  | _ => false

/-- Shape of the part of a captured length-spec group after the leading `(`
and first digit run: segments `,\s*\d+` and a final `)`.  Proof
infrastructure for showing `parse_answer_length` succeeds on every captured
group 3. -/
inductive TailShape : List Char → Prop
  | close : TailShape [')']
  | seg (ws ds rest : List Char) :
      (∀ c ∈ ws, isPySpace c = true) → ds ≠ [] →
      (∀ c ∈ ds, c.isDigit = true) → TailShape rest →
      TailShape (',' :: (ws ++ ds ++ rest))

/-- Concatenation of `,\s*\d+` segments, each a (whitespace, digits) pair
(proof infrastructure for the length-spec shape). -/
def segsConcat : List (List Char × List Char) → List Char
  | [] => []
  | wd :: r => ',' :: (wd.1 ++ wd.2 ++ segsConcat r)

end CrypticExtract

namespace CrypticExtract

/-! ### Theorems -/

/-- C2: the midpoint column split partitions the tokens: the two column sizes
add up to the input size, no token is in both columns, and every input token
is in one of them. -/
theorem column_split_partitions (ws : List Tok) (middle : ℚ) :
    (left_words ws middle).length + (right_words ws middle).length = ws.length ∧
    (∀ w, ¬(w ∈ left_words ws middle ∧ w ∈ right_words ws middle)) ∧
    (∀ w ∈ ws, w ∈ left_words ws middle ∨ w ∈ right_words ws middle) := by
  refine ⟨?_, ?_, ?_⟩
  · induction ws with
    | nil => rfl
    | cons w t ih =>
      by_cases h : w.x0 < middle
      · have h2 : ¬ middle ≤ w.x0 := not_le.mpr h
        simp [left_words, right_words, h, h2] at ih ⊢
        omega
      · have h2 : middle ≤ w.x0 := not_lt.mp h
        simp [left_words, right_words, h, h2] at ih ⊢
        omega
  · intro w hw
    rcases hw with ⟨hl, hr⟩
    rw [left_words, List.mem_filter] at hl
    rw [right_words, List.mem_filter] at hr
    have h1 : w.x0 < middle := by simpa using hl.2
    have h2 : middle ≤ w.x0 := by simpa using hr.2
    exact absurd h1 (not_lt.mpr h2)
  · intro w hw
    by_cases h : w.x0 < middle
    · exact Or.inl (List.mem_filter.mpr ⟨hw, by simpa using h⟩)
    · exact Or.inr (List.mem_filter.mpr ⟨hw, by simpa using not_lt.mp h⟩)

/-- Witness for C2 at a concrete token list and midpoint. -/
theorem column_split_partitions_witness :
    (left_words [⟨('x').toString.toList, 3, 0⟩, ⟨('y').toString.toList, 7, 0⟩] 5).length +
      (right_words [⟨('x').toString.toList, 3, 0⟩, ⟨('y').toString.toList, 7, 0⟩] 5).length = 2 :=
  (column_split_partitions [⟨('x').toString.toList, 3, 0⟩, ⟨('y').toString.toList, 7, 0⟩] 5).1

/-- C4: Scenario A, `"1 Cheese dish needs opener for starter (8)"`, yields
exactly the one record `{number 1, the trimmed clue text, answer_length [8],
answer null}`; Scenario B, `"12 Row about knight's old flame (4,4)"`, yields
exactly the one record with `answer_length = [4, 4]`. -/
theorem scenarioA_scenarioB_records :
    extractColumn ("1 Cheese dish needs opener for starter (8)").toList =
      some [(1, ⟨("Cheese dish needs opener for starter").toList, [8], none⟩)] ∧
    extractColumn (("12 Row about knight").toList ++ '\x27' ::
        ("s old flame (4,4)").toList) =
      some [(12, ⟨("Row about knight").toList ++ '\x27' :: ("s old flame").toList,
        [4, 4], none⟩)] := by
  constructor <;> rfl

/-- C6: a column with zero tokens reconstructs to the empty text, and the
tokenizer then yields an empty clue map with no exception (`some []`, not
`none`). -/
theorem empty_column_empty_cluemap :
    reconstruct_text [] = [] ∧ extractColumn (reconstruct_text []) = some [] := by
  constructor <;> rfl

/-- C9 counterexample: a clue wrapped across a line break in the middle of
its text — `"1 Cheese dish\nneeds opener for starter (8)"` — produces no
match at all (the clue-text group `.` cannot cross `\n`), so the clue map is
empty instead of containing the recombined clue. -/
theorem wrapped_clue_dropped_counterexample :
    finditer (("1 Cheese dish").toList ++ '\n' ::
        ("needs opener for starter (8)").toList) = [] ∧
    extractColumn (("1 Cheese dish").toList ++ '\n' ::
        ("needs opener for starter (8)").toList) = some [] := by
  constructor <;> rfl

/-- C9 amended: a line-wrapped clue is recombined into a single ClueRecord
only when the break falls in the whitespace immediately before the
parenthesized length spec (`\s+` matches the newline there); a break inside
the clue text prevents any match and the clue is silently dropped. -/
theorem wrap_only_before_length_spec :
    extractColumn (("1 Cheese dish needs opener for starter").toList ++ '\n' ::
        ("(8)").toList) =
      some [(1, ⟨("Cheese dish needs opener for starter").toList, [8], none⟩)] ∧
    extractColumn (("1 Cheese dish").toList ++ '\n' ::
        ("needs opener for starter (8)").toList) = some [] := by
  constructor <;> rfl

/-- C1 counterexample: the two tokens of Scenario D have tops `100.04` and
`100.06`, which differ by less than `0.1` but round (at one decimal) to
`100.0` and `100.1`; the reconstructor therefore puts them on two separate
lines, `"Cat\nsat"`, not on the single line `"Cat sat"`. -/
theorem scenarioD_two_lines_counterexample :
    reconstruct_text [⟨("Cat").toList, 10, 100.04⟩, ⟨("sat").toList, 40, 100.06⟩] =
      ("Cat" ++ "\n" ++ "sat").toList ∧
    ("Cat" ++ "\n" ++ "sat").toList ≠ ("Cat sat").toList ∧
    pyRound1 (100.04 : ℚ) ≠ pyRound1 (100.06 : ℚ) := by
  have h4 : pyRound1 (2501 / 25 : ℚ) = 100 := by
    have hf : ⌊(10 * (2501 / 25 : ℚ))⌋ = 1000 := by
      rw [Int.floor_eq_iff]; norm_num
    simp only [pyRound1, halfEvenRound, hf]; norm_num
  have h6 : pyRound1 (5003 / 50 : ℚ) = 1001 / 10 := by
    have hf : ⌊(10 * (5003 / 50 : ℚ))⌋ = 1000 := by
      rw [Int.floor_eq_iff]; norm_num
    simp only [pyRound1, halfEvenRound, hf]; norm_num
  refine ⟨?_, by decide, ?_⟩
  · norm_num [reconstruct_text, h4, h6, sortQ, insertQ, sortByX0, insertTok,
      joinSep, List.dedup, List.pwFilter, List.filter, List.map]
  · norm_num [h4, h6]

/-- C1 amended: two tokens of a column land on the same reconstructed line
exactly when their tops round to the same value at one decimal; when they do,
they are ordered by ascending `x0` and joined with a single space.  (Tops
that differ by less than `0.1` can still straddle a rounding boundary, as the
counterexample shows.) -/
theorem same_rounded_top_single_line (t1 t2 : Tok)
    (hy : pyRound1 t1.top = pyRound1 t2.top) (hx : t1.x0 < t2.x0) :
    reconstruct_text [t1, t2] = t1.text ++ ' ' :: t2.text := by
  have hx' : ¬(t2.x0 < t1.x0) := not_lt.mpr hx.le
  simp [reconstruct_text, hy, sortQ, insertQ, sortByX0, insertTok, joinSep,
    List.dedup, List.pwFilter, hx']

/-- Witness for the amended C1 at two concrete tokens sharing a rounded top. -/
theorem same_rounded_top_single_line_witness :
    reconstruct_text [⟨("Cat").toList, 10, 100.04⟩, ⟨("sat").toList, 40, 100.04⟩] =
      ("Cat sat").toList := by
  have h := same_rounded_top_single_line ⟨("Cat").toList, 10, 100.04⟩
    ⟨("sat").toList, 40, 100.04⟩ rfl (by norm_num)
  simpa using h

/-- The last element of a list with a head prepended: the last of the tail
when the tail is nonempty, else the head. -/
theorem getLast?_cons_eq_or {α : Type} (x : α) (l : List α) :
    (x :: l).getLast? = l.getLast?.or (some x) := by
  induction l generalizing x with
  | nil => rfl
  | cons z zs ih =>
    rw [List.getLast?_cons_cons, ih z]
    rcases h : zs.getLast? with _ | y <;> simp [Option.or]

/-- An element produced by `getLast?` is a member of the list. -/
theorem mem_of_getLast?_some {α : Type} {l : List α} {y : α}
    (h : l.getLast? = some y) : y ∈ l := by
  have hy : y ∈ l.getLast? := by simp [Option.mem_def, h]
  rcases List.mem_getLast?_eq_getLast hy with ⟨hne, rfl⟩
  exact List.getLast_mem hne

/-- The date field after folding the metadata step: the stripped last line
passing the date test, or the starting value if none does. -/
theorem foldl_scanStep_date (l : List (List Char)) (m : Meta) :
    (l.foldl scanStep m).date =
      (l.filter dateTest).getLast?.elim m.date (fun x => some (pyStrip x)) := by
  induction l generalizing m with
  | nil => rfl
  | cons x t ih =>
    rw [List.foldl_cons, ih]
    by_cases hd : dateTest x
    · rw [List.filter_cons_of_pos hd, getLast?_cons_eq_or]
      rcases hfilter : (t.filter dateTest).getLast? with _ | y
      · simp [Option.or, scanStep, hd]
      · simp [Option.or]
    · rw [List.filter_cons_of_neg hd]
      have : (scanStep m x).date = m.date := by
        simp only [scanStep, if_neg hd]
        by_cases hn : nameTest x <;> simp [hn]
      rw [this]

/-- The puzzle-name field after folding the metadata step: the stripped last
line passing the name test but not the date test, or the starting value. -/
theorem foldl_scanStep_name (l : List (List Char)) (m : Meta) :
    (l.foldl scanStep m).puzzle_name =
      (l.filter nameKeep).getLast?.elim m.puzzle_name (fun x => some (pyStrip x)) := by
  induction l generalizing m with
  | nil => rfl
  | cons x t ih =>
    rw [List.foldl_cons, ih]
    by_cases hk : nameKeep x
    · rw [List.filter_cons_of_pos hk, getLast?_cons_eq_or]
      have hd : dateTest x = false := by
        have := hk; simp [nameKeep] at this; exact this.1
      have hn : nameTest x = true := by
        have := hk; simp [nameKeep] at this; exact this.2
      rcases hfilter : (t.filter nameKeep).getLast? with _ | y
      · simp [Option.or, scanStep, hd, hn]
      · simp [Option.or]
    · rw [List.filter_cons_of_neg hk]
      have : (scanStep m x).puzzle_name = m.puzzle_name := by
        by_cases hd : dateTest x
        · simp [scanStep, hd]
        · have hn : nameTest x = false := by
            simp [nameKeep, hd] at hk; exact hk
          simp [scanStep, hd, hn]
      rw [this]

/-- C10: the metadata scanner examines exactly the first five page lines; a
line passing the date test never sets the puzzle name (the name test is the
`elif` branch of the date test); and for each field the last qualifying
examined line, stripped, is the value kept. -/
theorem metadata_first_five_else_branch_last_wins (lines : List (List Char)) :
    scanMeta lines = scanMeta (lines.take 5) ∧
    (scanMeta lines).date =
      ((lines.take 5).filter dateTest).getLast?.map pyStrip ∧
    (scanMeta lines).puzzle_name =
      ((lines.take 5).filter (fun l => !dateTest l && nameTest l)).getLast?.map pyStrip := by
  refine ⟨?_, ?_, ?_⟩
  · unfold scanMeta
    rw [List.take_take]
    norm_num
  · rw [scanMeta, foldl_scanStep_date]
    rcases ((lines.take 5).filter dateTest).getLast? with _ | y <;> rfl
  · rw [scanMeta, foldl_scanStep_name]
    show ((lines.take 5).filter nameKeep).getLast?.elim none _ =
      ((lines.take 5).filter nameKeep).getLast?.map pyStrip
    rcases ((lines.take 5).filter nameKeep).getLast? with _ | y <;> rfl

/-- C8 counterexample: the source tests the substring `"20"`, not a
four-digit year: the line `"20 May"` has no four-digit year yet sets the
date; and a line passing the date test never sets the puzzle name even when
it contains a name keyword, so "name set exactly when a keyword occurs" also
fails on `"Cryptic 2020 January"`. -/
theorem metadata_heuristic_counterexample :
    (scanMeta [("20 May").toList]).date = some (("20 May").toList) ∧
    hasFourDigitRun (("20 May").toList) = false ∧
    (scanMeta [("Cryptic 2020 January").toList]).puzzle_name = none ∧
    nameTest (("Cryptic 2020 January").toList) = true := by
  exact ⟨rfl, rfl, rfl, rfl⟩

/-- C8 amended: the scanner examines the first five raw page lines; the date
field is set exactly when such a line contains the substring `"20"` together
with a month name, and the puzzle-name field exactly when such a line fails
that date test and contains `"Times"`, `"Cryptic"` or `"Quick"`; otherwise
the fields stay unset (`none`), never an error. -/
theorem metadata_set_exactly_when (lines : List (List Char)) :
    ((scanMeta lines).date.isSome ↔
      ∃ l ∈ lines.take 5, containsSub (("20").toList) l = true ∧
        ∃ mth ∈ months, containsSub mth l = true) ∧
    ((scanMeta lines).puzzle_name.isSome ↔
      ∃ l ∈ lines.take 5, dateTest l = false ∧
        (containsSub (("Times").toList) l = true ∨
         containsSub (("Cryptic").toList) l = true ∨
         containsSub (("Quick").toList) l = true)) := by
  constructor
  · rw [scanMeta, foldl_scanStep_date]
    rcases hfilter : ((lines.take 5).filter dateTest).getLast? with _ | y
    · have ht : (lines.take 5).filter dateTest = [] := by
        simpa using congrArg Option.isSome hfilter
      have hnone : ∀ l ∈ lines.take 5, ¬(dateTest l = true) := by
        simpa [List.filter_eq_nil_iff] using ht
      simp only [Option.elim]
      constructor
      · intro h; simp at h
      · rintro ⟨l, hl, h20, mth, hmth, hmem⟩
        refine absurd ?_ (hnone l hl)
        rw [dateTest]
        simp only [Bool.and_eq_true, List.any_eq_true]
        exact ⟨h20, mth, hmth, hmem⟩
    · have hy : y ∈ (lines.take 5).filter dateTest := mem_of_getLast?_some hfilter
      rw [List.mem_filter] at hy
      simp only [Option.elim]
      constructor
      · intro _
        refine ⟨y, hy.1, ?_⟩
        have hdt := hy.2
        rw [dateTest] at hdt
        simp only [Bool.and_eq_true, List.any_eq_true] at hdt
        exact hdt
      · intro _; rfl
  · rw [scanMeta, foldl_scanStep_name]
    rcases hfilter : ((lines.take 5).filter nameKeep).getLast? with _ | y
    · have ht : (lines.take 5).filter nameKeep = [] := by
        simpa using congrArg Option.isSome hfilter
      have hnone : ∀ l ∈ lines.take 5, ¬(nameKeep l = true) := by
        simpa [List.filter_eq_nil_iff] using ht
      simp only [Option.elim]
      constructor
      · intro h; simp at h
      · rintro ⟨l, hl, hd, hkw⟩
        refine absurd ?_ (hnone l hl)
        rw [nameKeep, nameTest]
        simp only [hd, Bool.not_false, Bool.true_and, Bool.or_eq_true]
        tauto
    · have hy : y ∈ (lines.take 5).filter nameKeep := mem_of_getLast?_some hfilter
      rw [List.mem_filter] at hy
      simp only [Option.elim]
      constructor
      · intro _
        refine ⟨y, hy.1, ?_⟩
        have hk := hy.2
        rw [nameKeep, nameTest] at hk
        simp only [Bool.and_eq_true, Bool.not_eq_true', Bool.or_eq_true] at hk
        exact ⟨hk.1, by tauto⟩
      · intro _; rfl

/-- `countKey` over a cons cell. -/
theorem countKey_cons (k : ℤ) (a : ℤ × Clue) (t : List (ℤ × Clue)) :
    countKey k (a :: t) = (if a.1 = k then 1 else 0) + countKey k t := by
  by_cases h : a.1 = k <;> simp [countKey, List.filter_cons, h, Nat.add_comm]

/-- Looking up the key just written finds the new value. -/
theorem lookupDict_dictInsert_self (d : List (ℤ × Clue)) (k : ℤ) (v : Clue) :
    lookupDict k (dictInsert d k v) = some v := by
  induction d with
  | nil => simp [dictInsert, lookupDict]
  | cons a t ih =>
    by_cases h : a.1 = k
    · simp [dictInsert, h, lookupDict]
    · simpa [dictInsert, h, lookupDict] using ih

/-- Writing one key leaves lookups of other keys unchanged. -/
theorem lookupDict_dictInsert_ne (d : List (ℤ × Clue)) {k k' : ℤ}
    (h : k' ≠ k) (v : Clue) :
    lookupDict k (dictInsert d k' v) = lookupDict k d := by
  induction d with
  | nil => simp [dictInsert, lookupDict, h]
  | cons a t ih =>
    by_cases ha : a.1 = k'
    · simp [dictInsert, ha, lookupDict, h]
    · simp only [dictInsert, if_neg ha]
      by_cases hak : a.1 = k <;> simp [lookupDict, hak, ih]

/-- Writing one key leaves the entry count of other keys unchanged. -/
theorem countKey_dictInsert_ne (d : List (ℤ × Clue)) {k k' : ℤ}
    (h : k' ≠ k) (v : Clue) :
    countKey k (dictInsert d k' v) = countKey k d := by
  induction d with
  | nil => simp [dictInsert, countKey, h]
  | cons a t ih =>
    by_cases ha : a.1 = k'
    · subst ha
      simp [dictInsert, countKey_cons, h, ih]
    · simp [dictInsert, ha, countKey_cons, ih]

/-- Writing a key into a dict holding it at most once leaves exactly one
entry for it. -/
theorem countKey_dictInsert_self (d : List (ℤ × Clue)) (k : ℤ) (v : Clue)
    (h : countKey k d ≤ 1) : countKey k (dictInsert d k v) = 1 := by
  induction d with
  | nil => simp [dictInsert, countKey]
  | cons a t ih =>
    rw [countKey_cons] at h
    by_cases ha : a.1 = k
    · rw [if_pos ha] at h
      have ht : countKey k t = 0 := by omega
      simp [dictInsert, ha, countKey_cons, ht]
    · rw [if_neg ha] at h
      have := ih (by omega)
      simp [dictInsert, ha, countKey_cons, this]

/-- A successful lookup means the key occurs in the dict. -/
theorem lookupDict_some_countKey (d : List (ℤ × Clue)) (k : ℤ) (v : Clue)
    (h : lookupDict k d = some v) : 1 ≤ countKey k d := by
  induction d with
  | nil => simp [lookupDict] at h
  | cons a t ih =>
    by_cases ha : a.1 = k
    · rw [countKey_cons, if_pos ha]; omega
    · rw [lookupDict, if_neg ha] at h
      have := ih h
      rw [countKey_cons]
      omega

/-- When the per-column loop completes, both groups of every processed match
parsed successfully. -/
theorem processMatches_parse_ok (ms : List RMatch) (d d' : List (ℤ × Clue))
    (h : processMatches ms d = some d') :
    ∀ m ∈ ms, ∃ n lens, pyInt m.g1 = some n ∧ parse_answer_length m.g3 = some lens := by
  induction ms generalizing d with
  | nil => intro m hm; simp at hm
  | cons m0 ms ih =>
    intro m hm
    rw [processMatches] at h
    rcases hint : pyInt m0.g1 with _ | n0 <;> rw [hint] at h
    · simp at h
    rcases hlens : parse_answer_length m0.g3 with _ | lens0 <;> rw [hlens] at h
    · simp at h
    rcases List.mem_cons.mp hm with rfl | hm'
    · exact ⟨n0, lens0, hint, hlens⟩
    · exact ih _ h m hm'

/-- The per-column loop keeps every key's entry count at most one. -/
theorem processMatches_countKey (ms : List RMatch) (d d' : List (ℤ × Clue))
    (k : ℤ) (h : processMatches ms d = some d') (hwf : countKey k d ≤ 1) :
    countKey k d' ≤ 1 := by
  induction ms generalizing d with
  | nil =>
    rw [processMatches] at h
    cases h; exact hwf
  | cons m0 ms ih =>
    rw [processMatches] at h
    rcases hint : pyInt m0.g1 with _ | n0 <;> rw [hint] at h
    · simp at h
    rcases hlens : parse_answer_length m0.g3 with _ | lens0 <;> rw [hlens] at h
    · simp at h
    refine ih _ h ?_
    by_cases hk : n0 = k
    · subst hk
      exact le_of_eq (countKey_dictInsert_self _ _ _ hwf)
    · rw [countKey_dictInsert_ne _ hk]
      exact hwf

/-- After the per-column loop, a clue number's entry is the record of the
last match carrying that number, or the starting dict's entry if none
does. -/
theorem processMatches_lookup (ms : List RMatch) (d d' : List (ℤ × Clue))
    (n : ℤ) (h : processMatches ms d = some d') :
    lookupDict n d' =
      (ms.filter (numIs n)).getLast?.elim (lookupDict n d)
        (fun m => some (toClue m)) := by
  induction ms generalizing d with
  | nil =>
    rw [processMatches] at h
    cases h; rfl
  | cons m0 ms ih =>
    rw [processMatches] at h
    rcases hint : pyInt m0.g1 with _ | n0 <;> rw [hint] at h
    · simp at h
    rcases hlens : parse_answer_length m0.g3 with _ | lens0 <;> rw [hlens] at h
    · simp at h
    have hstep := ih _ h
    by_cases hn : n0 = n
    · subst hn
      have hfil : (m0 :: ms).filter (numIs n0) = m0 :: ms.filter (numIs n0) :=
        List.filter_cons_of_pos (by simp [numIs, hint])
      rw [hfil, getLast?_cons_eq_or, hstep]
      rcases (ms.filter (numIs n0)).getLast? with _ | y
      · simp only [Option.or, Option.elim]
        rw [lookupDict_dictInsert_self]
        have : toClue m0 = ⟨pyStrip m0.g2, lens0, none⟩ := by
          simp [toClue, hlens]
        rw [this]
      · simp [Option.or]
    · have hfil : (m0 :: ms).filter (numIs n) = ms.filter (numIs n) :=
        List.filter_cons_of_neg (by simp [numIs, hint, hn])
      rw [hfil, hstep, lookupDict_dictInsert_ne _ hn]

/-- C5: when the same clue number matches more than once in a column's text,
the final clue map holds exactly one entry for that number, and it is the
parse of the last matching occurrence (duplicates overwrite, they do not
append). -/
theorem duplicate_numbers_overwrite (text : List Char) (n : ℤ)
    (h2 : 2 ≤ ((finditer text).filter (numIs n)).length)
    (d : List (ℤ × Clue)) (hd : extractColumn text = some d) :
    countKey n d = 1 ∧
    ∃ m lens, ((finditer text).filter (numIs n)).getLast? = some m ∧
      parse_answer_length m.g3 = some lens ∧
      lookupDict n d = some ⟨pyStrip m.g2, lens, none⟩ := by
  rw [extractColumn] at hd
  have hne : (finditer text).filter (numIs n) ≠ [] := by
    intro hnil; rw [hnil] at h2; simp at h2
  rcases hlast : ((finditer text).filter (numIs n)).getLast? with _ | m
  · exact absurd (List.getLast?_eq_none_iff.mp hlast) hne
  have hmem : m ∈ (finditer text).filter (numIs n) := mem_of_getLast?_some hlast
  have hmem' : m ∈ finditer text := (List.mem_filter.mp hmem).1
  rcases processMatches_parse_ok _ _ _ hd m hmem' with ⟨n', lens, hint, hlens⟩
  have hlook := processMatches_lookup _ _ _ n hd
  rw [hlast] at hlook
  simp only [Option.elim] at hlook
  have htc : toClue m = ⟨pyStrip m.g2, lens, none⟩ := by
    simp [toClue, hlens]
  refine ⟨?_, m, lens, rfl, hlens, by rw [hlook, htc]⟩
  have hub := processMatches_countKey _ _ _ n hd (by simp [countKey])
  have hlb := lookupDict_some_countKey d n (toClue m) (by rw [hlook])
  omega

/-- Witness for C5: Scenario E, clue number 5 occurring twice in one column
text; the map keeps one entry equal to the second occurrence's parse. -/
theorem duplicate_numbers_overwrite_witness :
    countKey 5 [(5, ⟨("Baz qux").toList, [3, 2], none⟩)] = 1 ∧
    ∃ m lens,
      ((finditer (("5 Foo bar (4)").toList ++ '\n' ::
        ("5 Baz qux (3,2)").toList)).filter (numIs 5)).getLast? = some m ∧
      parse_answer_length m.g3 = some lens ∧
      lookupDict 5 [(5, ⟨("Baz qux").toList, [3, 2], none⟩)] =
        some ⟨pyStrip m.g2, lens, none⟩ :=
  duplicate_numbers_overwrite
    (("5 Foo bar (4)").toList ++ '\n' :: ("5 Baz qux (3,2)").toList) 5
    (by decide) [(5, ⟨("Baz qux").toList, [3, 2], none⟩)] (by rfl)

/-- Facts about the rendering of a single decimal digit. -/
theorem digitChar_facts (d : ℕ) (h : d < 10) :
    (Nat.digitChar d).isDigit = true ∧ isPySpace (Nat.digitChar d) = false ∧
    Nat.digitChar d ≠ ',' ∧ Nat.digitChar d ≠ '-' ∧ Nat.digitChar d ≠ '+' ∧
    Nat.digitChar d ≠ '(' ∧ Nat.digitChar d ≠ ')' ∧
    digitVal (Nat.digitChar d) = d := by
  interval_cases d <;> exact (by decide)

/-- `valDigits` over an appended digit. -/
theorem valDigits_append_singleton (xs : List Char) (c : Char) :
    valDigits (xs ++ [c]) = 10 * valDigits xs + digitVal c := by
  simp [valDigits, List.foldl_append]

/-- The decimal rendering of `n` (with enough fuel) is a nonempty digit
string whose value is `n`. -/
theorem natToCharsAux_spec (f : ℕ) :
    ∀ n < f, natToCharsAux f n ≠ [] ∧
      (∀ c ∈ natToCharsAux f n, c.isDigit = true) ∧
      valDigits (natToCharsAux f n) = n := by
  induction f with
  | zero => intro n hn; omega
  | succ f ih =>
    intro n hn
    by_cases h10 : n < 10
    · refine ⟨by simp [natToCharsAux, h10], ?_, ?_⟩
      · intro c hc
        simp [natToCharsAux, h10] at hc
        subst hc
        exact (digitChar_facts n h10).1
      · simp [natToCharsAux, h10, valDigits]
        exact (digitChar_facts n h10).2.2.2.2.2.2.2
    · have hdiv : n / 10 < f := by
        have h1 : n / 10 < n := Nat.div_lt_self (by omega) (by omega)
        omega
      rcases ih (n / 10) hdiv with ⟨hne, hdig, hval⟩
      rw [natToCharsAux]
      simp only [if_neg h10]
      have hmod := digitChar_facts (n % 10) (Nat.mod_lt n (by omega))
      refine ⟨by simp, ?_, ?_⟩
      · intro c hc
        rcases List.mem_append.mp hc with hc | hc
        · exact hdig c hc
        · simp at hc; subst hc; exact hmod.1
      · rw [valDigits_append_singleton, hval, hmod.2.2.2.2.2.2.2]
        omega

/-- The decimal rendering of `n` is a nonempty digit string of value `n`. -/
theorem natToChars_spec (n : ℕ) :
    natToChars n ≠ [] ∧ (∀ c ∈ natToChars n, c.isDigit = true) ∧
      valDigits (natToChars n) = n :=
  natToCharsAux_spec (n + 1) n (by omega)

/-- A digit character is not Python whitespace. -/
theorem isDigit_not_space {c : Char} (h : c.isDigit = true) :
    isPySpace c = false := by
  cases hb : isPySpace c
  · rfl
  · exfalso
    have hcases : c = ' ' ∨ c = '\t' ∨ c = '\n' ∨ c = '\x0d' ∨ c = '\x0b' ∨ c = '\x0c' := by
      simpa [isPySpace, or_assoc] using hb
    rcases hcases with h1 | h1 | h1 | h1 | h1 | h1 <;> (subst h1; exact absurd h (by decide))

/-- A digit character is none of the special characters of the length-spec
syntax. -/
theorem isDigit_ne_special {c : Char} (h : c.isDigit = true) :
    c ≠ ',' ∧ c ≠ '-' ∧ c ≠ '+' ∧ c ≠ '(' ∧ c ≠ ')' := by
  refine ⟨?_, ?_, ?_, ?_, ?_⟩ <;>
    (intro hc; subst hc; exact absurd h (by decide))

/-- Dropping a prefix of `p`-characters from a list with none leaves it
unchanged. -/
theorem dropWhile_eq_self_of_all {p : Char → Bool} (l : List Char)
    (h : ∀ c ∈ l, p c = false) : l.dropWhile p = l := by
  cases l with
  | nil => rfl
  | cons c t =>
    rw [List.dropWhile_cons, h c (by simp)]
    simp

/-- Stripping characters none of which occur leaves the string unchanged. -/
theorem pyStripSet_eq_self (p : Char → Bool) (s : List Char)
    (h : ∀ c ∈ s, p c = false) : pyStripSet p s = s := by
  rw [pyStripSet, dropWhile_eq_self_of_all s h,
    dropWhile_eq_self_of_all s.reverse (by intro c hc; exact h c (List.mem_reverse.mp hc)),
    List.reverse_reverse]

/-- Python `int` succeeds on any nonempty all-digit string. -/
theorem pyInt_digits (ds : List Char) (hne : ds ≠ [])
    (hdig : ∀ c ∈ ds, c.isDigit = true) :
    pyInt ds = some ((valDigits ds : ℕ) : ℤ) := by
  have hstrip : pyStrip ds = ds :=
    pyStripSet_eq_self _ _ (fun c hc => isDigit_not_space (hdig c hc))
  cases ds with
  | nil => exact absurd rfl hne
  | cons c cs =>
    have hc := hdig c (by simp)
    rcases isDigit_ne_special hc with ⟨_, hm, hp, _, _⟩
    have hpd : parseDigits (c :: cs) = some (valDigits (c :: cs)) := by
      rw [parseDigits, if_neg (by simp), if_pos (by simpa [List.all_eq_true] using hdig)]
    rw [pyInt, hstrip]
    dsimp only
    rw [if_neg hm, if_neg hp, hpd]
    rfl

/-- Python `int` on a rendered natural number gives the number back. -/
theorem pyInt_natToChars (n : ℕ) : pyInt (natToChars n) = some (n : ℤ) := by
  rcases natToChars_spec n with ⟨hne, hdig, hval⟩
  rw [pyInt_digits (natToChars n) hne hdig, hval]

/-- `splitSep` never returns the empty list of segments. -/
theorem splitSep_ne_nil (sep : Char) (s : List Char) : splitSep sep s ≠ [] := by
  cases s with
  | nil => simp [splitSep]
  | cons c t =>
    rw [splitSep]
    by_cases h : c = sep
    · simp [h]
    · rcases ht : splitSep sep t with _ | ⟨x, r⟩ <;> simp [h, ht]

/-- Splitting after a separator-free prefix prepends the prefix to the first
segment. -/
theorem splitSep_append (sep : Char) (p s : List Char) (hp : sep ∉ p) :
    splitSep sep (p ++ s) =
      (p ++ (splitSep sep s).headI) :: (splitSep sep s).tail := by
  induction p with
  | nil =>
    rcases hs : splitSep sep s with _ | ⟨x, r⟩
    · exact absurd hs (splitSep_ne_nil sep s)
    · simp [hs]
  | cons c p ih =>
    have hc : c ≠ sep := fun h => hp (h ▸ List.mem_cons_self c p)
    have hp' : sep ∉ p := fun h => hp (List.mem_cons_of_mem c h)
    rw [List.cons_append, splitSep, if_neg hc, ih hp']
    simp

/-- A separator-free string splits into itself. -/
theorem splitSep_of_not_mem (sep : Char) (p : List Char) (hp : sep ∉ p) :
    splitSep sep p = [p] := by
  have h := splitSep_append sep p [] hp
  simpa [splitSep] using h

/-- Splitting the separator-joined parts recovers the parts, when no part
contains the separator. -/
theorem splitSep_joinSep (sep : Char) (parts : List (List Char))
    (hne : parts ≠ []) (hfree : ∀ p ∈ parts, sep ∉ p) :
    splitSep sep (joinSep [sep] parts) = parts := by
  induction parts with
  | nil => exact absurd rfl hne
  | cons p rest ih =>
    rcases rest with _ | ⟨q, rest'⟩
    · exact splitSep_of_not_mem sep p (hfree p (by simp))
    · have hjoin0 : joinSep [sep] (p :: q :: rest') =
          p ++ [sep] ++ joinSep [sep] (q :: rest') := rfl
      rw [hjoin0]
      have hp : sep ∉ p := hfree p (by simp)
      have hjoin : p ++ [sep] ++ joinSep [sep] (q :: rest') =
          p ++ (sep :: joinSep [sep] (q :: rest')) := by simp
      rw [hjoin, splitSep_append sep p _ hp]
      have hsplit : splitSep sep (sep :: joinSep [sep] (q :: rest')) =
          [] :: splitSep sep (joinSep [sep] (q :: rest')) := by
        rw [splitSep, if_pos rfl]
      rw [hsplit]
      have hrec := ih (List.cons_ne_nil q rest')
        (fun r hr => hfree r (List.mem_cons_of_mem p hr))
      simp [hrec]

/-- Stripping a one-character wrap from both ends of a wrap-free body. -/
theorem pyStripSet_wrap (p : Char → Bool) (a b : Char) (body : List Char)
    (hne : body ≠ []) (ha : p a = true) (hb : p b = true)
    (h : ∀ c ∈ body, p c = false) :
    pyStripSet p (a :: (body ++ [b])) = body := by
  rcases body with _ | ⟨h0, t⟩
  · exact absurd rfl hne
  have hd1 : List.dropWhile p (a :: ((h0 :: t) ++ [b])) = (h0 :: t) ++ [b] := by
    rw [List.dropWhile_cons, if_pos ha, List.cons_append, List.dropWhile_cons,
      h h0 (by simp)]
    simp
  have hd2 : List.dropWhile p (((h0 :: t) ++ [b]).reverse) = (h0 :: t).reverse := by
    have hrevapp : ((h0 :: t) ++ [b]).reverse = b :: (h0 :: t).reverse := by simp
    rw [hrevapp, List.dropWhile_cons, if_pos hb]
    rcases hrev : (h0 :: t).reverse with _ | ⟨rh, rt⟩
    · simp at hrev
    have hrh : rh ∈ (h0 :: t) := by
      refine List.mem_reverse.mp ?_
      rw [hrev]; simp
    rw [List.dropWhile_cons, h rh hrh]
    simp
  rw [pyStripSet, hd1, hd2, List.reverse_reverse]

/-- Every character of comma-joined digit strings is a digit or a comma. -/
theorem joinSep_comma_mem (parts : List (List Char))
    (h : ∀ p ∈ parts, ∀ c ∈ p, c.isDigit = true) :
    ∀ c ∈ joinSep [','] parts, c.isDigit = true ∨ c = ',' := by
  induction parts with
  | nil => intro c hc; simp [joinSep] at hc
  | cons p rest ih =>
    intro c hc
    rcases rest with _ | ⟨q, rest'⟩
    · exact Or.inl (h p (by simp) c hc)
    · have hunfold : joinSep [','] (p :: q :: rest') =
          p ++ [','] ++ joinSep [','] (q :: rest') := rfl
      rw [hunfold] at hc
      rcases List.mem_append.mp hc with hc | hc
      · rcases List.mem_append.mp hc with hc | hc
        · exact Or.inl (h p (by simp) c hc)
        · simp at hc; exact Or.inr hc
      · exact ih (fun r hr => h r (List.mem_cons_of_mem p hr)) c hc

/-- Parsing each formatted positive entry recovers the entries. -/
theorem mapM_pyInt_parts (L : List ℤ) (hpos : ∀ x ∈ L, 0 < x) :
    (L.map intToChars).mapM (fun x => pyInt (pyStrip x)) = some L := by
  induction L with
  | nil => rfl
  | cons x xs ih =>
    have hx : 0 < x := hpos x (by simp)
    have hform : intToChars x = natToChars x.toNat := by
      rw [intToChars, if_neg (not_lt.mpr hx.le)]
    have hdig := (natToChars_spec x.toNat).2.1
    have hstrip : pyStrip (natToChars x.toNat) = natToChars x.toNat :=
      pyStripSet_eq_self _ _ (fun c hc => isDigit_not_space (hdig c hc))
    have hpy : pyInt (pyStrip (intToChars x)) = some x := by
      rw [hform, hstrip, pyInt_natToChars, Int.toNat_of_nonneg hx.le]
    rw [List.map_cons, List.mapM_cons, hpy, ih (fun y hy => hpos y (List.mem_cons_of_mem x hy))]
    rfl

/-- C3: formatting a nonempty sequence of positive integers as a
parenthesized comma-separated length spec and parsing it back with
`parse_answer_length` yields the sequence exactly; a single integer with no
comma parses to the one-element sequence. -/
theorem length_spec_round_trip (L : List ℤ) (hne : L ≠ [])
    (hpos : ∀ x ∈ L, 0 < x) :
    parse_answer_length (formatLenSpec L) = some L := by
  rcases L with _ | ⟨x, xs⟩
  · exact absurd rfl hne
  have hpartdig : ∀ p ∈ (x :: xs).map intToChars, ∀ c ∈ p, c.isDigit = true := by
    intro p hp c hc
    rcases List.mem_map.mp hp with ⟨y, hy, rfl⟩
    have hy0 : 0 < y := hpos y hy
    rw [intToChars, if_neg (not_lt.mpr hy0.le)] at hc
    exact (natToChars_spec y.toNat).2.1 c hc
  have hbodychars := joinSep_comma_mem _ hpartdig
  have hbodyne : joinSep [','] ((x :: xs).map intToChars) ≠ [] := by
    rcases xs with _ | ⟨y, ys⟩
    · have : joinSep [','] ((x :: ([] : List ℤ)).map intToChars) = intToChars x := rfl
      rw [this, intToChars, if_neg (not_lt.mpr (hpos x (by simp)).le)]
      exact (natToChars_spec x.toNat).1
    · have : joinSep [','] ((x :: y :: ys).map intToChars) =
          intToChars x ++ [','] ++ joinSep [','] ((y :: ys).map intToChars) := rfl
      rw [this]
      simp
  have hstrip : pyStripParens (formatLenSpec (x :: xs)) =
      joinSep [','] ((x :: xs).map intToChars) := by
    rw [formatLenSpec, pyStripParens]
    refine pyStripSet_wrap _ '(' ')' _ hbodyne (by decide) (by decide) ?_
    intro c hc
    rcases hbodychars c hc with hd | hd
    · rcases isDigit_ne_special hd with ⟨_, _, _, h1, h2⟩
      simp [h1, h2]
    · subst hd; decide
  rw [parse_answer_length, hstrip]
  rcases xs with _ | ⟨y, ys⟩
  · have hbody : joinSep [','] ((x :: ([] : List ℤ)).map intToChars) = intToChars x := rfl
    have hx : 0 < x := hpos x (by simp)
    have hnocomma : ',' ∉ joinSep [','] ((x :: ([] : List ℤ)).map intToChars) := by
      rw [hbody]
      intro hmem
      rw [intToChars, if_neg (not_lt.mpr hx.le)] at hmem
      have := (natToChars_spec x.toNat).2.1 ',' hmem
      exact absurd this (by decide)
    rw [if_neg hnocomma, hbody, intToChars, if_neg (not_lt.mpr hx.le),
      pyInt_natToChars, Int.toNat_of_nonneg hx.le]
    rfl
  · have hbody : joinSep [','] ((x :: y :: ys).map intToChars) =
        intToChars x ++ [','] ++ joinSep [','] ((y :: ys).map intToChars) := rfl
    have hcomma : ',' ∈ joinSep [','] ((x :: y :: ys).map intToChars) := by
      rw [hbody]; simp
    rw [if_pos hcomma]
    have hfree : ∀ p ∈ (x :: y :: ys).map intToChars, ',' ∉ p := by
      intro p hp hmem
      have := hpartdig p hp ',' hmem
      exact absurd this (by decide)
    rw [splitSep_joinSep ',' _ (by simp) hfree]
    exact mapM_pyInt_parts _ hpos

/-- Witness for C3 at the spec's example sequence `[4, 3, 5]`. -/
theorem length_spec_round_trip_witness :
    parse_answer_length (formatLenSpec [4, 3, 5]) = some [4, 3, 5] :=
  length_spec_round_trip [4, 3, 5] (by decide) (by decide)

/-- Dropping `p`-characters passes over a prefix made of them. -/
theorem dropWhile_append_of_all {p : Char → Bool} (ws l : List Char)
    (h : ∀ c ∈ ws, p c = true) :
    (ws ++ l).dropWhile p = l.dropWhile p := by
  induction ws with
  | nil => rfl
  | cons w ws ih =>
    rw [List.cons_append, List.dropWhile_cons, if_pos (h w (by simp))]
    exact ih (fun c hc => h c (List.mem_cons_of_mem w hc))

/-- Python `strip` of a whitespace run followed by digits leaves the
digits. -/
theorem pyStrip_space_digits (ws ds : List Char)
    (hws : ∀ c ∈ ws, isPySpace c = true)
    (hdig : ∀ c ∈ ds, c.isDigit = true) : pyStrip (ws ++ ds) = ds := by
  have hd0 : (ws ++ ds).dropWhile isPySpace = ds := by
    rw [dropWhile_append_of_all ws ds hws]
    exact dropWhile_eq_self_of_all ds (fun c hc => isDigit_not_space (hdig c hc))
  have hd1 : ds.reverse.dropWhile isPySpace = ds.reverse :=
    dropWhile_eq_self_of_all _
      (fun c hc => isDigit_not_space (hdig c (List.mem_reverse.mp hc)))
  rw [pyStrip, pyStripSet, hd0, hd1, List.reverse_reverse]

/-- `mapM` over `Option` succeeds when every element does. -/
theorem mapM_isSome {α β : Type} (f : α → Option β) (l : List α)
    (h : ∀ x ∈ l, (f x).isSome = true) : (l.mapM f).isSome = true := by
  induction l with
  | nil => rfl
  | cons x xs ih =>
    rcases hfx : f x with _ | y
    · have := h x (by simp)
      rw [hfx] at this
      simp at this
    · have hxs := ih (fun z hz => h z (List.mem_cons_of_mem x hz))
      rcases hms : xs.mapM f with _ | ys
      · rw [hms] at hxs; simp at hxs
      · rw [List.mapM_cons, hfx, hms]
        rfl

/-- A Python whitespace character is not a parenthesis. -/
theorem isPySpace_ne_paren {c : Char} (h : isPySpace c = true) :
    c ≠ '(' ∧ c ≠ ')' := by
  have hcases : c = ' ' ∨ c = '\t' ∨ c = '\n' ∨ c = '\x0d' ∨ c = '\x0b' ∨ c = '\x0c' := by
    simpa [isPySpace, or_assoc] using h
  rcases hcases with h1 | h1 | h1 | h1 | h1 | h1 <;> (subst h1; exact (by decide))

/-- Characters of concatenated length-spec segments: commas, whitespace and
digits only. -/
theorem segsConcat_chars (segs : List (List Char × List Char))
    (h : ∀ wd ∈ segs, (∀ c ∈ wd.1, isPySpace c = true) ∧ wd.2 ≠ [] ∧
      (∀ c ∈ wd.2, c.isDigit = true)) :
    ∀ c ∈ segsConcat segs, c = ',' ∨ isPySpace c = true ∨ c.isDigit = true := by
  induction segs with
  | nil => intro c hc; simp [segsConcat] at hc
  | cons wd r ih =>
    intro c hc
    rw [segsConcat] at hc
    rcases List.mem_cons.mp hc with rfl | hc'
    · exact Or.inl rfl
    rcases List.mem_append.mp hc' with hc1 | hc3
    · rcases List.mem_append.mp hc1 with hc2 | hc2
      · exact Or.inr (Or.inl ((h wd (by simp)).1 c hc2))
      · exact Or.inr (Or.inr ((h wd (by simp)).2.2 c hc2))
    · exact ih (fun z hz => h z (List.mem_cons_of_mem wd hz)) c hc3

/-- A shaped length-spec tail decomposes into explicit segments followed by
the closing parenthesis. -/
theorem TailShape_segments {mid : List Char} (h : TailShape mid) :
    ∃ segs : List (List Char × List Char),
      mid = segsConcat segs ++ [')'] ∧
      ∀ wd ∈ segs, (∀ c ∈ wd.1, isPySpace c = true) ∧ wd.2 ≠ [] ∧
        (∀ c ∈ wd.2, c.isDigit = true) := by
  induction h with
  | close => exact ⟨[], rfl, by simp⟩
  | seg ws ds rest hws hne hds hrest ih =>
    rcases ih with ⟨segs, heq, hprops⟩
    refine ⟨(ws, ds) :: segs, ?_, ?_⟩
    · rw [heq, segsConcat]
      simp [List.append_assoc]
    · intro wd hwd
      rcases List.mem_cons.mp hwd with rfl | hwd'
      · exact ⟨hws, hne, hds⟩
      · exact hprops wd hwd'

/-- Splitting a comma-free prefix followed by length-spec segments on commas
yields the prefix and the segment bodies. -/
theorem splitSep_segs (segs : List (List Char × List Char)) :
    ∀ pre : List Char, ',' ∉ pre →
      (∀ wd ∈ segs, ',' ∉ wd.1 ∧ ',' ∉ wd.2) →
      splitSep ',' (pre ++ segsConcat segs) =
        pre :: segs.map (fun wd => wd.1 ++ wd.2) := by
  induction segs with
  | nil =>
    intro pre hpre _
    rw [segsConcat, List.append_nil, splitSep_of_not_mem ',' pre hpre]
    rfl
  | cons wd r ih =>
    intro pre hpre hfree
    rw [segsConcat, splitSep_append ',' pre _ hpre]
    have hsplit : splitSep ',' (',' :: (wd.1 ++ wd.2 ++ segsConcat r)) =
        [] :: splitSep ',' (wd.1 ++ wd.2 ++ segsConcat r) := by
      rw [splitSep, if_pos rfl]
    have hpre' : ',' ∉ wd.1 ++ wd.2 := by
      intro hmem
      rcases List.mem_append.mp hmem with hm | hm
      · exact (hfree wd (by simp)).1 hm
      · exact (hfree wd (by simp)).2 hm
    have hrec := ih (wd.1 ++ wd.2) hpre'
      (fun z hz => hfree z (List.mem_cons_of_mem wd hz))
    rw [hsplit]
    have hh : (pre ++ ([] :: splitSep ',' (wd.1 ++ wd.2 ++ segsConcat r)).headI) ::
        ([] :: splitSep ',' (wd.1 ++ wd.2 ++ segsConcat r)).tail =
        (pre ++ []) :: splitSep ',' (wd.1 ++ wd.2 ++ segsConcat r) := rfl
    rw [hh, List.append_nil, hrec]
    rfl

/-- `parse_answer_length` succeeds on every string of the shape the
length-spec group captures: `(`, digits, then comma segments and `)`. -/
theorem parse_answer_length_shape (ds0 mid : List Char)
    (hne : ds0 ≠ []) (hdig : ∀ c ∈ ds0, c.isDigit = true)
    (h : TailShape mid) :
    (parse_answer_length ('(' :: (ds0 ++ mid))).isSome = true := by
  rcases TailShape_segments h with ⟨segs, rfl, hprops⟩
  have hassoc : ds0 ++ (segsConcat segs ++ [')']) =
      (ds0 ++ segsConcat segs) ++ [')'] := (List.append_assoc _ _ _).symm
  rw [hassoc]
  have hbodyne : ds0 ++ segsConcat segs ≠ [] := by
    intro hb
    exact hne (List.append_eq_nil.mp hb).1
  have hbodychars : ∀ c ∈ ds0 ++ segsConcat segs,
      c.isDigit = true ∨ c = ',' ∨ isPySpace c = true := by
    intro c hc
    rcases List.mem_append.mp hc with hc1 | hc2
    · exact Or.inl (hdig c hc1)
    · rcases segsConcat_chars segs hprops c hc2 with h1 | h1 | h1
      · exact Or.inr (Or.inl h1)
      · exact Or.inr (Or.inr h1)
      · exact Or.inl h1
  have hstrip : pyStripParens ('(' :: ((ds0 ++ segsConcat segs) ++ [')'])) =
      ds0 ++ segsConcat segs := by
    rw [pyStripParens]
    refine pyStripSet_wrap _ '(' ')' _ hbodyne (by decide) (by decide) ?_
    intro c hc
    rcases hbodychars c hc with h1 | h1 | h1
    · rcases isDigit_ne_special h1 with ⟨_, _, _, hp1, hp2⟩
      simp [hp1, hp2]
    · subst h1; decide
    · rcases isPySpace_ne_paren h1 with ⟨hp1, hp2⟩
      simp [hp1, hp2]
  rw [parse_answer_length, hstrip]
  have hds0free : ',' ∉ ds0 := by
    intro hmem
    exact absurd (hdig ',' hmem) (by decide)
  cases segs with
  | nil =>
    rw [segsConcat, List.append_nil]
    have hnocomma : ',' ∉ ds0 := hds0free
    rw [if_neg hnocomma, pyInt_digits ds0 hne hdig]
    rfl
  | cons wd r =>
    have hcomma : ',' ∈ ds0 ++ segsConcat (wd :: r) := by
      rw [segsConcat]
      exact List.mem_append.mpr (Or.inr (by simp))
    rw [if_pos hcomma]
    have hsegfree : ∀ z ∈ wd :: r, ',' ∉ z.1 ∧ ',' ∉ z.2 := by
      intro z hz
      rcases hprops z hz with ⟨hzs, hzne, hzd⟩
      constructor
      · intro hm; exact absurd (hzs ',' hm) (by decide)
      · intro hm; exact absurd (hzd ',' hm) (by decide)
    rw [splitSep_segs (wd :: r) ds0 hds0free hsegfree]
    refine mapM_isSome _ _ ?_
    intro x hx
    rcases List.mem_cons.mp hx with rfl | hx'
    · have hstrip0 : pyStrip x = x :=
        pyStripSet_eq_self _ _ (fun c hc => isDigit_not_space (hdig c hc))
      rw [hstrip0, pyInt_digits x hne hdig]
      rfl
    · rcases List.mem_map.mp hx' with ⟨z, hz, rfl⟩
      rcases hprops z hz with ⟨hzs, hzne, hzd⟩
      rw [pyStrip_space_digits z.1 z.2 hzs hzd, pyInt_digits z.2 hzne hzd]
      rfl

/-- One `,\s*\d+` segment prepended to a shaped tail keeps the accumulator
decomposition. -/
theorem tail_step (acc X Y mid out : List Char)
    (hX : ∀ c ∈ X, isPySpace c = true) (hY : Y ≠ [])
    (hYd : ∀ c ∈ Y, c.isDigit = true) (hmid : TailShape mid)
    (hout : out = (acc ++ ',' :: (X ++ Y)) ++ mid) :
    ∃ mid2, TailShape mid2 ∧ out = acc ++ mid2 := by
  refine ⟨',' :: (X ++ (Y ++ mid)), ?_, ?_⟩
  · have hseg := TailShape.seg X Y mid hX hY hYd hmid
    simpa [List.append_assoc] using hseg
  · rw [hout]; simp [List.append_assoc]

/-- Whatever `parenTail` returns extends its accumulator with a shaped
tail. -/
theorem parenTail_shape (fuel : ℕ) :
    ∀ s acc out r, parenTail fuel s acc = some (out, r) →
      ∃ mid, TailShape mid ∧ out = acc ++ mid := by
  induction fuel with
  | zero => intro s acc out r hp; simp [parenTail] at hp
  | succ fuel ih =>
    intro s acc out r hp
    rw [parenTail.eq_def] at hp
    split at hp
    · rename_i heq
      exact absurd heq (by omega)
    · rename_i f2 heq
      have hf : f2 = fuel := by omega
      subst hf
      dsimp only at hp
      split at hp
      · simp only [Option.some.injEq, Prod.mk.injEq] at hp
        exact ⟨[')'], TailShape.close, hp.1.symm⟩
      · split at hp
        · simp at hp
        · rename_i hdsne
          rcases ih _ _ _ _ hp with ⟨mid, hmid, hout⟩
          refine tail_step acc _ _ mid out
            (fun c hc => List.mem_takeWhile_imp hc)
            (fun hnil => hdsne (by rw [hnil]; rfl))
            (fun c hc => List.mem_takeWhile_imp hc) hmid hout
      · simp at hp

/-- The length-spec group parser only returns strings that
`parse_answer_length` accepts. -/
theorem parseParen_parse_ok (s g3 r : List Char)
    (h : parseParen s = some (g3, r)) :
    (parse_answer_length g3).isSome = true := by
  rw [parseParen.eq_def] at h
  split at h
  · rename_i r0
    dsimp only at h
    split at h
    · simp at h
    · rename_i hdsne
      rcases parenTail_shape _ _ _ _ _ h with ⟨mid, hmid, hout⟩
      have hout' : g3 = '(' :: (r0.takeWhile Char.isDigit ++ mid) := by
        rw [hout]; rfl
      rw [hout']
      refine parse_answer_length_shape _ _ ?_ ?_ hmid
      · intro hnil
        exact hdsne (by rw [hnil]; rfl)
      · intro cc hcc; exact List.mem_takeWhile_imp hcc
  · simp at h

/-- A successful lazy-group search returns the given group 1 and a group 3
accepted by `parse_answer_length`. -/
theorem lazyLoop_ok (g1 : List Char) :
    ∀ s g2rev m rest, lazyLoop g1 g2rev s = some (m, rest) →
      m.g1 = g1 ∧ (parse_answer_length m.g3).isSome = true := by
  intro s
  induction s with
  | nil => intro g2rev m rest hp; simp [lazyLoop] at hp
  | cons c r ih =>
    intro g2rev m rest hp
    rw [lazyLoop] at hp
    by_cases hc : c = '\n'
    · rw [if_pos hc] at hp; simp at hp
    · rw [if_neg hc] at hp
      rcases hinner : (if (r.takeWhile isPySpace).isEmpty then none
          else parseParen (r.dropWhile isPySpace)) with _ | ⟨g3, rest2⟩
      · rw [hinner] at hp
        exact ih (c :: g2rev) m rest hp
      · rw [hinner] at hp
        simp only [Option.some.injEq, Prod.mk.injEq] at hp
        rcases hp with ⟨hm, hrest⟩
        subst hm
        by_cases hws : (r.takeWhile isPySpace).isEmpty
        · rw [if_pos hws] at hinner; simp at hinner
        · rw [if_neg hws] at hinner
          exact ⟨rfl, parseParen_parse_ok _ _ _ hinner⟩

/-- The whitespace-backtracking loop returns matches with the given group 1
and an accepted group 3. -/
theorem ws1Loop_ok (g1 : List Char) :
    ∀ wsRev rest m rest2, ws1Loop g1 wsRev rest = some (m, rest2) →
      m.g1 = g1 ∧ (parse_answer_length m.g3).isSome = true := by
  intro wsRev
  induction wsRev with
  | nil => intro rest m rest2 hp; simp [ws1Loop] at hp
  | cons c cr ih =>
    intro rest m rest2 hp
    rw [ws1Loop] at hp
    rcases hl : lazyLoop g1 [] rest with _ | v
    · rw [hl] at hp
      exact ih _ _ _ hp
    · rw [hl] at hp
      simp only [Option.some.injEq] at hp
      subst hp
      exact lazyLoop_ok g1 rest [] m rest2 hl

/-- Every match the anchored matcher produces has a numeric group 1 accepted
by `int` and a length-spec group 3 accepted by `parse_answer_length`. -/
theorem matchAt_ok (s : List Char) (m : RMatch) (rest : List Char)
    (h : matchAt s = some (m, rest)) :
    (pyInt m.g1).isSome = true ∧ (parse_answer_length m.g3).isSome = true := by
  rw [matchAt] at h
  dsimp only at h
  by_cases hemp : (s.takeWhile Char.isDigit).isEmpty
  · rw [if_pos hemp] at h; simp at h
  · rw [if_neg hemp] at h
    rcases ws1Loop_ok _ _ _ _ _ h with ⟨hg1, hg3⟩
    refine ⟨?_, hg3⟩
    rw [hg1, pyInt_digits _ (fun hnil => hemp (by rw [hnil]; rfl))
      (fun c hc => List.mem_takeWhile_imp hc)]
    rfl

/-- Every match the scanner produces has both groups accepted. -/
theorem finditerAux_ok (fuel : ℕ) :
    ∀ s m, m ∈ finditerAux fuel s →
      (pyInt m.g1).isSome = true ∧ (parse_answer_length m.g3).isSome = true := by
  induction fuel with
  | zero => intro s m hm; simp [finditerAux] at hm
  | succ fuel ih =>
    intro s m hm
    rw [finditerAux] at hm
    rcases hma : matchAt s with _ | ⟨m0, rest⟩
    · rw [hma] at hm
      by_cases hse : s.isEmpty
      · rw [if_pos hse] at hm; simp at hm
      · rw [if_neg hse] at hm
        exact ih _ m hm
    · rw [hma] at hm
      rcases List.mem_cons.mp hm with rfl | hm'
      · exact matchAt_ok _ _ _ hma
      · exact ih rest m hm'

/-- The per-column loop completes whenever every match's groups are
accepted. -/
theorem processMatches_total (ms : List RMatch)
    (h : ∀ m ∈ ms, (pyInt m.g1).isSome = true ∧
      (parse_answer_length m.g3).isSome = true) :
    ∀ d, (processMatches ms d).isSome = true := by
  induction ms with
  | nil => intro d; rfl
  | cons m0 ms ih =>
    intro d
    rcases h m0 (by simp) with ⟨h1, h3⟩
    rcases hint : pyInt m0.g1 with _ | n0
    · rw [hint] at h1; simp at h1
    rcases hlens : parse_answer_length m0.g3 with _ | lens
    · rw [hlens] at h3; simp at h3
    rw [processMatches, hint, hlens]
    exact ih (fun z hz => h z (List.mem_cons_of_mem m0 hz)) _

/-- C7 counterexample: the per-match loop has no error handling.  Fed a
candidate whose length-spec does not parse (`"(a)"`) followed by a
well-formed candidate (`"(8)"`), the whole column's processing aborts
(`none`) and the well-formed clue 2 is not emitted, contradicting "skip to
the next candidate".  (Such a candidate can never arise from the clue
pattern, as the amended theorem shows.) -/
theorem parse_failure_aborts_column_counterexample :
    processMatches [⟨("1").toList, ("x").toList, ("(a)").toList⟩,
        ⟨("2").toList, ("y").toList, ("(8)").toList⟩] [] = none ∧
    parse_answer_length (("(8)").toList) = some [8] ∧
    parse_answer_length (("(a)").toList) = none := ⟨rfl, rfl, rfl⟩

/-- C7 amended: for every column text, the length-spec group of every
candidate match parses successfully (the pattern admits only digit
segments), so the per-match `int` calls never raise and extraction of the
column never aborts; the code contains no per-match error handling, so an
unparseable spec would abort the whole column, not a single match. -/
theorem length_spec_always_parses (text : List Char) :
    (∀ m ∈ finditer text, (parse_answer_length m.g3).isSome = true) ∧
    (extractColumn text).isSome = true := by
  have hall : ∀ m ∈ finditer text,
      (pyInt m.g1).isSome = true ∧ (parse_answer_length m.g3).isSome = true :=
    fun m hm => finditerAux_ok (text.length + 1) text m hm
  exact ⟨fun m hm => (hall m hm).2,
    by rw [extractColumn]; exact processMatches_total _ hall []⟩

/-- Witness for the amended C7 at Scenario A's column text. -/
theorem length_spec_always_parses_witness :
    (extractColumn (("1 Cheese dish needs opener for starter (8)").toList)).isSome = true :=
  (length_spec_always_parses (("1 Cheese dish needs opener for starter (8)").toList)).2

end CrypticExtract
